import Mathlib

/-!
Verification of the document-identity and rule-matching/dispatch subsystem of
RediSearch (files `src/spec.c`, `src/doc_table.h`, `src/rules/rules.c`).

The C data structures are shallowly embedded: the Redis `dict` used to collect
match results becomes an association-free list of names with add-if-absent
semantics, the prefix trie becomes the list of its nodes, machine integers
become `Nat`, and fallible C functions return `Option`/`Except`/`Bool` results.
External collaborators that the core only calls through an interface (the
expression evaluator, the Redis RDB string/integer readers, the double parser
of the argument cursor) are passed in as function parameters, so every
definition stays executable.
-/

namespace RediSearch

/-! ## Redis dict, modelled as a list of keys with add-if-absent semantics

`Indexes_FindMatchingSchemaRules` uses a `dict` keyed by index-spec name whose
values are the spec pointers; only the key set matters for the behaviour
proved here.  `dictAdd` in Redis fails (and changes nothing) when the key is
already present; `dictFind` is a plain lookup. -/

/-- Byte-string prefix test (the trie walk of `TrieMap_FindPrefixes` matches a
node exactly when its stored string is a prefix of the key). -/
def strIsPrefixOf (p s : String) : Bool :=
  p.data.isPrefixOf s.data

def dictFind (d : List String) (k : String) : Bool :=
  d.contains k

def dictAdd (d : List String) (k : String) : List String :=
  if d.contains k then d else d ++ [k]

/-! ## The match engine of `spec.c` (`Indexes_FindMatchingSchemaRules`)

`ScemaPrefixes_g` is a trie mapping each registered prefix string to the list
of index specs registered under it; `TrieMap_FindPrefixes` returns, in
traversal order, every node whose stored prefix is a prefix of the key.  We
embed the trie as the list of its nodes (in traversal order) and keep only the
spec names.  `SchemaRules_g` is the array of rules carrying an optional
compiled filter expression; expression handles are embedded as `Nat`
identifiers and `EvalCtx_EvalExpr` combined with `RSValue_BoolTest` on the
record view built for the key is embedded as an oracle
`evalF : Nat → Option Bool` (`none` models an evaluation status other than
`EXPR_EVAL_OK`). -/

structure SchemaPrefixNode where
  pfx : String
  index_specs : List String
deriving DecidableEq

structure SchemaRule where
  filter_exp : Option Nat
  spec : String
deriving DecidableEq

/-- One iteration of the first loop of `Indexes_FindMatchingSchemaRules`:
for every spec listed at a matching prefix node, the spec name is added
unless `dictFind(specs, node->prefix)` holds — the C code checks the node's
prefix string, not the spec name, against the result dict. -/
def prefixNodeStep (acc : List String) (nd : SchemaPrefixNode) : List String :=
  nd.index_specs.foldl
    (fun a s => if dictFind a nd.pfx then a else dictAdd a s) acc

/-- The prefix phase: all trie nodes whose prefix is a prefix of the key,
processed in traversal order. -/
def prefixPhase (nodes : List SchemaPrefixNode) (key : String) : List String :=
  (nodes.filter (fun nd => strIsPrefixOf nd.pfx key)).foldl prefixNodeStep []

/-- The filter phase (second loop of `Indexes_FindMatchingSchemaRules`): every
rule with a compiled filter expression is evaluated against the record view;
when evaluation returns `EXPR_EVAL_OK` with a truthy result, the rule's spec
is added if not already present.  The rule's prefixes are not consulted. -/
def filterPhase (rules : List SchemaRule) (evalF : Nat → Option Bool)
    (acc : List String) : List String :=
  rules.foldl
    (fun a r =>
      match r.filter_exp with
      | none => a
      | some f =>
        match evalF f with
        | none => a
        | some b => if b && !(dictFind a r.spec) then dictAdd a r.spec else a)
    acc

/-- `Indexes_FindMatchingSchemaRules` (spec.c): the set of index-spec names
matching a key, computed as the prefix phase followed by the filter phase over
a result dict that starts empty. -/
def Indexes_FindMatchingSchemaRules (nodes : List SchemaPrefixNode)
    (rules : List SchemaRule) (evalF : Nat → Option Bool) (key : String) :
    List String :=
  filterPhase rules evalF (prefixPhase nodes key)

/-! ### Basic dict lemmas -/

theorem mem_dictAdd {d : List String} {k s : String} :
    s ∈ dictAdd d k ↔ s ∈ d ∨ s = k := by
  by_cases h : k ∈ d
  · constructor
    · intro hs
      simp only [dictAdd, List.elem_iff, if_pos h] at hs
      exact Or.inl hs
    · rintro (hs | rfl) <;> simp [dictAdd, List.elem_iff, if_pos h, *]
  · simp [dictAdd, List.elem_iff, if_neg h, List.mem_append]

theorem dictAdd_nodup {d : List String} {k : String} (h : d.Nodup) :
    (dictAdd d k).Nodup := by
  by_cases hc : k ∈ d
  · simpa [dictAdd, List.elem_iff, if_pos hc] using h
  · simp only [dictAdd, List.elem_iff, if_neg hc]
    simpa [List.nodup_append] using ⟨h, hc⟩

theorem mem_of_mem_dictAdd_base {d : List String} {k s : String}
    (h : s ∈ d) : s ∈ dictAdd d k :=
  mem_dictAdd.mpr (Or.inl h)

/-! ### Lemmas about the guarded inner fold of the prefix phase -/

theorem guardAdd_mono {p : String} {l acc : List String} {s : String}
    (h : s ∈ acc) :
    s ∈ l.foldl (fun a x => if dictFind a p then a else dictAdd a x) acc := by
  induction l generalizing acc with
  | nil => exact h
  | cons x xs ih =>
    simp only [List.foldl_cons]
    by_cases hg : dictFind acc p
    · exact ih (by simpa [hg] using h)
    · exact ih (by simp only [hg, if_neg, Bool.false_eq_true, if_false]
                   exact mem_of_mem_dictAdd_base h)

theorem guardAdd_sound {p : String} {l acc : List String} {s : String}
    (h : s ∈ l.foldl (fun a x => if dictFind a p then a else dictAdd a x) acc) :
    s ∈ acc ∨ s ∈ l := by
  induction l generalizing acc with
  | nil => exact Or.inl h
  | cons x xs ih =>
    simp only [List.foldl_cons] at h
    rcases ih h with hacc | htl
    · by_cases hg : dictFind acc p
      · simp only [hg, if_true] at hacc
        exact Or.inl hacc
      · simp only [hg, Bool.false_eq_true, if_false] at hacc
        rcases mem_dictAdd.mp hacc with h1 | rfl
        · exact Or.inl h1
        · exact Or.inr (List.mem_cons_self _ _)
    · exact Or.inr (List.mem_cons_of_mem _ htl)

theorem guardAdd_complete {p : String} {l acc : List String} {s : String}
    (hp_acc : p ∉ acc) (hp_l : p ∉ l) (hs : s ∈ l) :
    s ∈ l.foldl (fun a x => if dictFind a p then a else dictAdd a x) acc := by
  induction l generalizing acc with
  | nil => cases hs
  | cons x xs ih =>
    have hg : dictFind acc p = false := by
      simp only [dictFind, List.elem_iff, Bool.eq_false_iff]
      intro hc
      exact hp_acc (List.elem_iff.mp hc)
    simp only [List.foldl_cons, hg, Bool.false_eq_true, if_false]
    have hp_acc' : p ∉ dictAdd acc x := by
      intro hmem
      rcases mem_dictAdd.mp hmem with h1 | rfl
      · exact hp_acc h1
      · exact hp_l (List.mem_cons_self _ _)
    rcases List.mem_cons.mp hs with rfl | hs'
    · exact guardAdd_mono (mem_dictAdd.mpr (Or.inr rfl))
    · exact ih hp_acc' (fun hm => hp_l (List.mem_cons_of_mem _ hm)) hs'

theorem guardAdd_nodup {p : String} {l acc : List String} (h : acc.Nodup) :
    (l.foldl (fun a x => if dictFind a p then a else dictAdd a x) acc).Nodup := by
  induction l generalizing acc with
  | nil => exact h
  | cons x xs ih =>
    simp only [List.foldl_cons]
    by_cases hg : dictFind acc p
    · simp only [hg, if_true]
      exact ih h
    · simp only [hg, Bool.false_eq_true, if_false]
      exact ih (dictAdd_nodup h)

/-! ### Lemmas about the prefix phase -/

theorem prefixFold_mono {L : List SchemaPrefixNode} {acc : List String}
    {s : String} (h : s ∈ acc) : s ∈ L.foldl prefixNodeStep acc := by
  induction L generalizing acc with
  | nil => exact h
  | cons nd rest ih => exact ih (guardAdd_mono h)

theorem prefixFold_sound {L : List SchemaPrefixNode} {acc : List String}
    {s : String} (h : s ∈ L.foldl prefixNodeStep acc) :
    s ∈ acc ∨ ∃ nd ∈ L, s ∈ nd.index_specs := by
  induction L generalizing acc with
  | nil => exact Or.inl h
  | cons nd rest ih =>
    rcases ih h with hacc | ⟨nd', hnd', hs'⟩
    · rcases guardAdd_sound hacc with h1 | h2
      · exact Or.inl h1
      · exact Or.inr ⟨nd, List.mem_cons_self _ _, h2⟩
    · exact Or.inr ⟨nd', List.mem_cons_of_mem _ hnd', hs'⟩

theorem prefixFold_complete {L : List SchemaPrefixNode} {acc : List String}
    {s : String}
    (hguard : ∀ nd ∈ L, nd.pfx ∉ acc)
    (hnames : ∀ nd ∈ L, ∀ nd' ∈ L, nd.pfx ∉ nd'.index_specs)
    (hs : ∃ nd ∈ L, s ∈ nd.index_specs) :
    s ∈ L.foldl prefixNodeStep acc := by
  induction L generalizing acc with
  | nil => exact absurd hs (by simp)
  | cons nd0 rest ih =>
    simp only [List.foldl_cons]
    have hstep : ∀ q, q ∈ prefixNodeStep acc nd0 → q ∈ acc ∨ q ∈ nd0.index_specs :=
      fun q hq => guardAdd_sound hq
    have hguard' : ∀ nd ∈ rest, nd.pfx ∉ prefixNodeStep acc nd0 := by
      intro nd hnd hmem
      rcases hstep _ hmem with h1 | h2
      · exact hguard nd (List.mem_cons_of_mem _ hnd) h1
      · exact hnames nd (List.mem_cons_of_mem _ hnd) nd0
          (List.mem_cons_self _ _) h2
    have hnames' : ∀ nd ∈ rest, ∀ nd' ∈ rest, nd.pfx ∉ nd'.index_specs :=
      fun nd hnd nd' hnd' =>
        hnames nd (List.mem_cons_of_mem _ hnd) nd' (List.mem_cons_of_mem _ hnd')
    rcases hs with ⟨nd, hnd, hsmem⟩
    rcases List.mem_cons.mp hnd with rfl | hnd'
    · have h0 : s ∈ prefixNodeStep acc nd := by
        refine guardAdd_complete (hguard nd (List.mem_cons_self _ _)) ?_ hsmem
        exact hnames nd (List.mem_cons_self _ _) nd (List.mem_cons_self _ _)
      exact prefixFold_mono h0
    · exact ih hguard' hnames' ⟨nd, hnd', hsmem⟩

theorem prefixFold_nodup {L : List SchemaPrefixNode} {acc : List String}
    (h : acc.Nodup) : (L.foldl prefixNodeStep acc).Nodup := by
  induction L generalizing acc with
  | nil => exact h
  | cons nd rest ih => exact ih (guardAdd_nodup h)

/-! ### Lemmas about the filter phase -/

theorem filterPhase_mono {rules : List SchemaRule} {evalF : Nat → Option Bool}
    {acc : List String} {s : String} (h : s ∈ acc) :
    s ∈ filterPhase rules evalF acc := by
  induction rules generalizing acc with
  | nil => exact h
  | cons r rest ih =>
    simp only [filterPhase, List.foldl_cons] at *
    apply ih
    rcases hf : r.filter_exp with _ | f
    · simpa [hf] using h
    · rcases he : evalF f with _ | b
      · simpa [hf, he] using h
      · simp only [hf, he]
        split
        · exact mem_of_mem_dictAdd_base h
        · exact h

theorem filterPhase_sound {rules : List SchemaRule} {evalF : Nat → Option Bool}
    {acc : List String} {s : String} (h : s ∈ filterPhase rules evalF acc) :
    s ∈ acc ∨ ∃ r ∈ rules, r.spec = s ∧
      ∃ f, r.filter_exp = some f ∧ evalF f = some true := by
  induction rules generalizing acc with
  | nil => exact Or.inl h
  | cons r rest ih =>
    simp only [filterPhase, List.foldl_cons] at h
    rcases ih h with hacc | ⟨r', hr', hspec, f, hf, he⟩
    · rcases hf : r.filter_exp with _ | f
      · simp only [hf] at hacc
        exact Or.inl hacc
      · rcases he : evalF f with _ | b
        · simp only [hf, he] at hacc
          exact Or.inl hacc
        · simp only [hf, he] at hacc
          by_cases hcond : b && !(dictFind acc r.spec)
          · rw [if_pos hcond] at hacc
            rcases mem_dictAdd.mp hacc with h1 | rfl
            · exact Or.inl h1
            · have hb : b = true := by
                cases b
                · simp at hcond
                · rfl
              subst hb
              exact Or.inr ⟨r, List.mem_cons_self _ _, rfl, f, hf, he⟩
          · rw [if_neg hcond] at hacc
            exact Or.inl hacc
    · exact Or.inr ⟨r', List.mem_cons_of_mem _ hr', hspec, f, hf, he⟩

theorem filterPhase_complete {rules : List SchemaRule}
    {evalF : Nat → Option Bool} {acc : List String} {r : SchemaRule}
    (hr : r ∈ rules) {f : Nat} (hf : r.filter_exp = some f)
    (he : evalF f = some true) : r.spec ∈ filterPhase rules evalF acc := by
  induction rules generalizing acc with
  | nil => cases hr
  | cons r0 rest ih =>
    simp only [filterPhase, List.foldl_cons]
    rcases List.mem_cons.mp hr with rfl | hr'
    · simp only [hf, he]
      by_cases hd : dictFind acc r.spec = true
      · have hcond : (true && !(dictFind acc r.spec)) = false := by simp [hd]
        rw [hcond]
        simp only [Bool.false_eq_true, if_false]
        exact filterPhase_mono (List.elem_iff.mp hd)
      · have hcond : (true && !(dictFind acc r.spec)) = true := by
          simp [Bool.eq_false_iff.mpr hd]
        rw [if_pos hcond]
        exact filterPhase_mono (mem_dictAdd.mpr (Or.inr rfl))
    · exact ih hr'

theorem filterPhase_nodup {rules : List SchemaRule} {evalF : Nat → Option Bool}
    {acc : List String} (h : acc.Nodup) :
    (filterPhase rules evalF acc).Nodup := by
  induction rules generalizing acc with
  | nil => exact h
  | cons r rest ih =>
    simp only [filterPhase, List.foldl_cons]
    apply ih
    rcases hf : r.filter_exp with _ | f
    · simpa [hf] using h
    · rcases he : evalF f with _ | b
      · simpa [hf, he] using h
      · simp only [hf, he]
        split
        · exact dictAdd_nodup h
        · exact h

/-! ### Claim theorems for the match engine -/

/-- C1 (amended).  For every key, an index name is in the result of
`Indexes_FindMatchingSchemaRules` if and only if either some registered
prefix node whose prefix is a prefix of the key lists that index, or some
rule for that index has a filter expression that evaluates successfully to
true on the key's record view.  In particular a prefix-matching index is
included even when its predicate evaluates to false, and an index whose
prefixes do not match the key is included whenever its predicate evaluates
to true.  The hypothesis `H` rules out collisions between registered prefix
strings and index names among matching nodes: the prefix-phase dedup guard
compares the node's prefix string, not the spec name, against the result
dict, so such a collision can suppress an addition. -/
theorem c1_match_iff_prefix_or_filter (nodes : List SchemaPrefixNode)
    (rules : List SchemaRule) (evalF : Nat → Option Bool) (key s : String)
    (H : ∀ nd ∈ nodes, strIsPrefixOf nd.pfx key = true →
      ∀ nd' ∈ nodes, strIsPrefixOf nd'.pfx key = true →
        nd.pfx ∉ nd'.index_specs) :
    s ∈ Indexes_FindMatchingSchemaRules nodes rules evalF key ↔
      (∃ nd ∈ nodes, strIsPrefixOf nd.pfx key = true ∧ s ∈ nd.index_specs) ∨
      (∃ r ∈ rules, r.spec = s ∧
        ∃ f, r.filter_exp = some f ∧ evalF f = some true) := by
  constructor
  · intro h
    rcases filterPhase_sound h with hpre | hrule
    · rcases prefixFold_sound hpre with hnil | ⟨nd, hnd, hs⟩
      · cases hnil
      · rcases List.mem_filter.mp hnd with ⟨hmem, hpfx⟩
        exact Or.inl ⟨nd, hmem, by simpa using hpfx, hs⟩
    · exact Or.inr hrule
  · intro h
    rcases h with ⟨nd, hmem, hpfx, hs⟩ | ⟨r, hr, hspec, f, hf, he⟩
    · apply filterPhase_mono
      apply prefixFold_complete
      · intro nd' _ hcon
        cases hcon
      · intro nd1 hnd1 nd2 hnd2
        rcases List.mem_filter.mp hnd1 with ⟨hm1, hp1⟩
        rcases List.mem_filter.mp hnd2 with ⟨hm2, hp2⟩
        exact H nd1 hm1 (by simpa using hp1) nd2 hm2 (by simpa using hp2)
      · exact ⟨nd, List.mem_filter.mpr ⟨hmem, by simpa using hpfx⟩, hs⟩
    · subst hspec
      exact filterPhase_complete hr hf he

/-- C1 witness: scenario with indexes `A` (prefix `"x:"`) and `B`
(prefix `""`); key `"x:1"` matches both. -/
theorem c1_witness :
    "B" ∈ Indexes_FindMatchingSchemaRules
      [⟨"x:", ["A"]⟩, ⟨"", ["B"]⟩] [] (fun _ => none) "x:1" :=
  (c1_match_iff_prefix_or_filter [⟨"x:", ["A"]⟩, ⟨"", ["B"]⟩] []
      (fun _ => none) "x:1" "B" (by decide)).mpr
    (Or.inl ⟨⟨"", ["B"]⟩, by decide, by decide, by decide⟩)

/-- C1 counterexample.  Rule with prefix `"user:"` and a predicate on index
`adults`; key `"user:2"` whose record view makes the predicate evaluate to
false.  The claim says `adults` must not be in the match result; the code
includes it, because the prefix phase never consults the predicate. -/
theorem c1_counterexample :
    ("adults" ∈ Indexes_FindMatchingSchemaRules
        [⟨"user:", ["adults"]⟩] [⟨some 0, "adults"⟩]
        (fun _ => some false) "user:2") ∧
      (fun _ : Nat => some false) 0 ≠ some true := by
  constructor
  · decide
  · decide

/-- C2.  For every key, the match result contains at most one entry per
index, even when several registered prefixes of the same index are prefixes
of the key: the result of `Indexes_FindMatchingSchemaRules` has no duplicate
index names. -/
theorem c2_match_result_nodup (nodes : List SchemaPrefixNode)
    (rules : List SchemaRule) (evalF : Nat → Option Bool) (key : String) :
    (Indexes_FindMatchingSchemaRules nodes rules evalF key).Nodup :=
  filterPhase_nodup (prefixFold_nodup List.nodup_nil)

/-! ## The DocTable

Modelled from the spec: only the header `doc_table.h` is among the sources
(`doc_table.c` is not), so the table operations follow the spec's §4.1.
The table owns an id-indexed array of metadata entries (`docs`, slot `i`
holding the entry of internal id `i + 1`, `none` once tombstoned), a reverse
key-to-id map (`dim`, the `DocIdMap` trie-map embedded as an association
list), and the high-water id counter `maxDocId`.  Internal id `0` is
reserved as "not found".  Per-document metadata (score, flags, payload) is
carried opaquely as a value of type `α`: none of the modelled operations
inspects it. -/
structure DocTable (α : Type) where
  maxDocId : Nat
  docs : List (Option (String × α))
  dim : List (String × Nat)
deriving DecidableEq

/-- Modelled from the spec: `DocIdMap_Get` returns the id stored for the key,
or 0 if the key is not in the map. -/
def DocIdMap_Get (dim : List (String × Nat)) (key : String) : Nat :=
  match dim.find? (fun p => p.1 == key) with
  | some p => p.2
  | none => 0

/-- Modelled from the spec: `DocTable_GetId` — the id of a key if it exists
in the table, or 0 if it does not. -/
def DocTable_GetId {α : Type} (t : DocTable α) (key : String) : Nat :=
  DocIdMap_Get t.dim key

/-- Modelled from the spec: `DocTable_Put` returns the prior id and leaves
the table unchanged when the reverse map already holds the key; otherwise it
allocates `maxDocId + 1`, appends the metadata entry and updates the reverse
map. -/
def DocTable_Put {α : Type} (t : DocTable α) (key : String) (meta : α) :
    DocTable α × Nat :=
  let xid := DocTable_GetId t key
  if xid ≠ 0 then (t, xid)
  else
    let docId := t.maxDocId + 1
    (⟨docId, t.docs ++ [some (key, meta)], t.dim ++ [(key, docId)]⟩, docId)

/-- Modelled from the spec: `DocTable_Get` — metadata for an id, `none` if
the id is 0, beyond `maxDocId`, or previously deleted. -/
def DocTable_Get {α : Type} (t : DocTable α) (docId : Nat) :
    Option (String × α) :=
  if docId = 0 ∨ t.maxDocId < docId then none
  else t.docs.getD (docId - 1) none

/-- Modelled from the spec: `DocTable_GetByKeyR` — the metadata entry of a
key, through the reverse map. -/
def DocTable_GetByKey {α : Type} (t : DocTable α) (key : String) :
    Option (String × α) :=
  DocTable_Get t (DocTable_GetId t key)

/-- Modelled from the spec: `DocTable_Delete` removes the reverse-map entry
and tombstones the metadata slot; returns false if the key was absent.  Ids
are not compacted or reused. -/
def DocTable_Delete {α : Type} (t : DocTable α) (key : String) :
    DocTable α × Bool :=
  let docId := DocTable_GetId t key
  if docId = 0 then (t, false)
  else
    (⟨t.maxDocId, t.docs.set (docId - 1) none,
      t.dim.filter (fun p => !(p.1 == key))⟩, true)

/-- Well-formedness of a `DocTable`: the reverse map never stores the
reserved id 0.  `DocTable_Put` only ever inserts `maxDocId + 1`, so every
reachable table satisfies this. -/
def DocTableWF {α : Type} (t : DocTable α) : Prop :=
  ∀ p ∈ t.dim, p.2 ≠ 0

/-! ### DocTable lemmas -/

theorem DocIdMap_Get_append {dim dim' : List (String × Nat)} {key : String}
    (h : DocIdMap_Get dim key ≠ 0) :
    DocIdMap_Get (dim ++ dim') key = DocIdMap_Get dim key := by
  induction dim with
  | nil => simp [DocIdMap_Get] at h
  | cons p rest ih =>
    by_cases hp : p.1 == key
    · simp [DocIdMap_Get, List.find?_cons, hp]
    · simp only [DocIdMap_Get, List.cons_append, List.find?_cons, hp] at *
      exact ih h

theorem DocIdMap_Get_absent_append {dim : List (String × Nat)}
    {key : String} {i : Nat} (h : DocIdMap_Get dim key = 0)
    (hwf : ∀ p ∈ dim, p.2 ≠ 0) :
    DocIdMap_Get (dim ++ [(key, i)]) key = i := by
  induction dim with
  | nil => simp [DocIdMap_Get]
  | cons p rest ih =>
    by_cases hp : p.1 == key
    · exfalso
      simp only [DocIdMap_Get, List.find?_cons, hp] at h
      exact hwf p (List.mem_cons_self _ _) h
    · simp only [DocIdMap_Get, List.cons_append, List.find?_cons, hp] at *
      exact ih h (fun q hq => hwf q (List.mem_cons_of_mem _ hq))

theorem DocIdMap_Get_filter_ne {dim : List (String × Nat)} {key k' : String}
    (hne : key ≠ k') :
    DocIdMap_Get (dim.filter (fun p => !(p.1 == k'))) key
      = DocIdMap_Get dim key := by
  induction dim with
  | nil => rfl
  | cons p rest ih =>
    by_cases hp' : p.1 == k'
    · have hpk : (p.1 == key) = false := by
        have : p.1 = k' := by simpa using hp'
        subst this
        simpa using fun hc => hne hc.symm
      simp only [DocIdMap_Get, List.filter_cons, hp', Bool.not_true,
        Bool.false_eq_true, if_false, List.find?_cons, hpk] at *
      exact ih
    · have hp'f : (p.1 == k') = false := Bool.eq_false_iff.mpr hp'
      by_cases hpk : p.1 == key
      · simp [DocIdMap_Get, List.filter_cons, hp'f, List.find?_cons, hpk]
      · have hpkf : (p.1 == key) = false := Bool.eq_false_iff.mpr hpk
        simp only [DocIdMap_Get, List.filter_cons, hp'f, Bool.not_false,
          if_true, List.find?_cons, hpkf] at *
        exact ih

theorem DocTable_GetId_delete_self {α : Type} (t : DocTable α)
    (key : String) : DocTable_GetId (DocTable_Delete t key).1 key = 0 := by
  unfold DocTable_Delete
  by_cases h : DocTable_GetId t key = 0
  · simp only [h, if_true]
  · simp only [h, if_neg, if_false]
    unfold DocTable_GetId DocIdMap_Get
    rw [List.find?_eq_none.mpr]
    intro p hp
    have := List.of_mem_filter hp
    simpa using this

theorem DocTable_Put_getId {α : Type} (t : DocTable α) (key : String)
    (meta : α) (hwf : DocTableWF t) :
    DocTable_GetId (DocTable_Put t key meta).1 key
        = (DocTable_Put t key meta).2
      ∧ (DocTable_Put t key meta).2 ≠ 0 := by
  unfold DocTable_Put
  by_cases h : DocTable_GetId t key ≠ 0
  · rw [if_pos h]
    exact ⟨rfl, h⟩
  · rw [if_neg h]
    push_neg at h
    constructor
    · simpa [DocTable_GetId] using DocIdMap_Get_absent_append h hwf
    · exact Nat.succ_ne_zero _

theorem DocTable_Put_of_present {α : Type} (t : DocTable α) (key : String)
    (meta : α) (h : DocTable_GetId t key ≠ 0) :
    DocTable_Put t key meta = (t, DocTable_GetId t key) := by
  unfold DocTable_Put
  simp [h]

theorem DocTable_Put_wf {α : Type} (t : DocTable α) (key : String)
    (meta : α) (hwf : DocTableWF t) :
    DocTableWF (DocTable_Put t key meta).1 := by
  unfold DocTable_Put
  by_cases h : DocTable_GetId t key ≠ 0
  · simpa [h] using hwf
  · simp only [h, if_neg, if_false]
    intro p hp
    rcases List.mem_append.mp hp with h1 | h2
    · exact hwf p h1
    · simp only [List.mem_singleton] at h2
      subst h2
      omega

theorem DocTable_Delete_wf {α : Type} (t : DocTable α) (key : String)
    (hwf : DocTableWF t) : DocTableWF (DocTable_Delete t key).1 := by
  unfold DocTable_Delete
  by_cases h : DocTable_GetId t key = 0
  · simpa [h] using hwf
  · simp only [h, if_neg, if_false]
    intro p hp
    exact hwf p (List.mem_of_mem_filter hp)

/-! ### Operation sequences on a DocTable (used to state C3) -/

inductive DocOp (α : Type) where
  | putOp (key : String) (meta : α)
  | delOp (key : String)
deriving DecidableEq

/-- Whether an operation is a delete of the given key. -/
def DocOp.deletes {α : Type} (op : DocOp α) (k : String) : Bool :=
  match op with
  | .delOp k' => k' == k
  | .putOp _ _ => false

def applyOp {α : Type} (t : DocTable α) : DocOp α → DocTable α
  | .putOp k m => (DocTable_Put t k m).1
  | .delOp k => (DocTable_Delete t k).1

def applyOps {α : Type} (t : DocTable α) (ops : List (DocOp α)) :
    DocTable α :=
  ops.foldl applyOp t

theorem DocTable_GetId_applyOp {α : Type} {t : DocTable α} {k : String}
    {op : DocOp α} (hid : DocTable_GetId t k ≠ 0)
    (hop : op.deletes k = false) :
    DocTable_GetId (applyOp t op) k = DocTable_GetId t k := by
  cases op with
  | putOp k' m =>
    unfold applyOp DocTable_Put
    by_cases h : DocTable_GetId t k' ≠ 0
    · simp [h]
    · push_neg at h
      simp only [h, ne_eq, not_true_eq_false, if_neg, if_false,
        Bool.false_eq_true, not_false_eq_true]
      exact DocIdMap_Get_append hid
  | delOp k' =>
    have hne : k ≠ k' := by
      intro hkk
      subst hkk
      simp [DocOp.deletes] at hop
    unfold applyOp DocTable_Delete
    by_cases h : DocTable_GetId t k' = 0
    · simp [h]
    · simp only [h, if_neg, if_false]
      exact DocIdMap_Get_filter_ne hne

theorem DocTable_GetId_applyOps {α : Type} (t : DocTable α) (k : String)
    (ops : List (DocOp α)) (hid : DocTable_GetId t k ≠ 0)
    (hops : ∀ op ∈ ops, op.deletes k = false) :
    DocTable_GetId (applyOps t ops) k = DocTable_GetId t k := by
  induction ops generalizing t with
  | nil => rfl
  | cons op rest ih =>
    have h1 := DocTable_GetId_applyOp hid (hops op (List.mem_cons_self _ _))
    have h2 := ih (applyOp t op) (by rw [h1]; exact hid)
      (fun o ho => hops o (List.mem_cons_of_mem _ ho))
    simpa [applyOps, h1] using h2

/-- C3.  `put` is idempotent by key: after `put(k, ...)` and any sequence of
table operations that does not delete `k`, a second `put(k, ...)` returns
the same internal id as the first call and leaves the whole table — in
particular the key's stored metadata — unchanged. -/
theorem c3_put_idempotent {α : Type} (t : DocTable α) (k : String)
    (m m' : α) (ops : List (DocOp α)) (hwf : DocTableWF t)
    (hops : ∀ op ∈ ops, op.deletes k = false) :
    (DocTable_Put (applyOps (DocTable_Put t k m).1 ops) k m').2
        = (DocTable_Put t k m).2
      ∧ (DocTable_Put (applyOps (DocTable_Put t k m).1 ops) k m').1
        = applyOps (DocTable_Put t k m).1 ops := by
  have h1 := DocTable_Put_getId t k m hwf
  have h2 := DocTable_GetId_applyOps (DocTable_Put t k m).1 k ops
    (by rw [h1.1]; exact h1.2) hops
  have h3 : DocTable_GetId (applyOps (DocTable_Put t k m).1 ops) k
      = (DocTable_Put t k m).2 := by rw [h2, h1.1]
  have h4 : DocTable_GetId (applyOps (DocTable_Put t k m).1 ops) k ≠ 0 := by
    rw [h3]; exact h1.2
  have h5 := DocTable_Put_of_present
    (applyOps (DocTable_Put t k m).1 ops) k m' h4
  rw [h5, h3]
  exact ⟨rfl, rfl⟩

/-- C3 witness: concrete run on a fresh table with an interleaved `put` and
`delete` of an unrelated key. -/
theorem c3_witness :
    (DocTable_Put (applyOps (DocTable_Put (⟨0, [], []⟩ : DocTable Nat)
          "k" 7).1 [DocOp.putOp "k2" 8, DocOp.delOp "k2"]) "k" 9).2
      = (DocTable_Put (⟨0, [], []⟩ : DocTable Nat) "k" 7).2 := by
  exact (c3_put_idempotent (⟨0, [], []⟩ : DocTable Nat) "k" 7 9
    [DocOp.putOp "k2" 8, DocOp.delOp "k2"]
    (by unfold DocTableWF; intro p hp; cases hp)
    (by decide)).1

/-! ## Deletion dispatch (`rules.c`, `delCallback`)

`rindexes_g` is the global list of all indexes created with rules; each
carries its own `DocTable`.  The notification event is the Redis keyspace
event bitmask; the constants below are the values of the Redis module API
header (not part of the sources). -/

def REDISMODULE_NOTIFY_GENERIC : Nat := 4
def REDISMODULE_NOTIFY_EXPIRED : Nat := 256
def REDISMODULE_NOTIFY_EVICTED : Nat := 512

/-- An entry of `rindexes_g`: an index spec reduced to the state the
deletion and dispatch paths touch. -/
structure RegisteredIndex (α : Type) where
  name : String
  isAsync : Bool
  docs : DocTable α
deriving DecidableEq

/-- The event test at the top of `delCallback`: evicted or expired events
delete, and a generic event whose action string starts with 'd' (the `del`
command) deletes. -/
def shouldDeleteEvent (event : Nat) (action : String) : Bool :=
  if event &&& (REDISMODULE_NOTIFY_EVICTED ||| REDISMODULE_NOTIFY_EXPIRED) ≠ 0
  then true
  else if event = REDISMODULE_NOTIFY_GENERIC then
    match action.data with
    | c :: _ => c == 'd'
    | [] => false
  else false

/-- `delCallback` (rules.c): on a deleting event, the key is deleted from
the `DocTable` of every registered index, unconditionally — the match
engine (`SchemaRules_Check` / `Indexes_FindMatchingSchemaRules`) is never
consulted, as the function's arguments show. -/
def delCallback {α : Type} (event : Nat) (action : String)
    (keyname : String) (rindexes : List (RegisteredIndex α)) :
    List (RegisteredIndex α) :=
  if !(shouldDeleteEvent event action) then rindexes
  else rindexes.map
    (fun sp => { sp with docs := (DocTable_Delete sp.docs keyname).1 })

/-- C4.  On a record-delete, expire, or evict notification, the key's id is
deleted from the identifier table of every registered index — in particular
from every index that currently holds the key — without consulting the
match engine: after `delCallback` no index's table resolves the key any
more, whatever any rule's prefixes or predicate would say. -/
theorem c4_delete_dispatch_unconditional {α : Type} (event : Nat)
    (action keyname : String) (rindexes : List (RegisteredIndex α))
    (hdel : shouldDeleteEvent event action = true) :
    ∀ sp ∈ delCallback event action keyname rindexes,
      DocTable_GetId sp.docs keyname = 0 := by
  intro sp hsp
  unfold delCallback at hsp
  rw [hdel] at hsp
  simp only [Bool.not_true, Bool.false_eq_true, if_false, List.mem_map]
    at hsp
  rcases hsp with ⟨sp0, _, rfl⟩
  exact DocTable_GetId_delete_self sp0.docs keyname

/-- A registered index holding key `k`, used by the C4 witness. -/
def idxW : RegisteredIndex Nat :=
  ⟨"idx", false, (DocTable_Put (⟨0, [], []⟩ : DocTable Nat) "k" 5).1⟩

/-- C4 witness: an expired-key notification deletes the key from an index
that holds it. -/
theorem c4_witness :
    DocTable_GetId ((delCallback 256 "" "k" [idxW]).headD idxW).docs "k"
      = 0 :=
  c4_delete_dispatch_unconditional 256 "" "k" [idxW] (by decide)
    ((delCallback 256 "" "k" [idxW]).headD idxW) (by decide)

/-! ## Dispatch of one matched item (`rules.c`, `SchemaRules_ProcessItem`)

The loop body of `SchemaRules_ProcessItem` for one entry of the match
result: the spec is loaded (asserted present), the NOREINDEX scan-mode
check consults the spec's `DocTable`, then the item is either submitted to
the async queue or indexed synchronously; on the synchronous path a
`QUERY_ENOIDXFIELDS` failure is rewritten to success and any other failure
trips `assert(rc == REDISMODULE_OK)`.  The outcome of the external indexing
pipeline (`SchemaRules_IndexDocument`, i.e. `Document_LoadSchemaFields`,
`ACTX_New` and `ACTX_Index`) is passed in as `indexResult`. -/

inductive QueryErrCode where
  | enoIdxFields
  | otherErr
deriving DecidableEq

inductive ProcessOutcome where
  | skipped
  | submittedAsync
  | indexedOk
  | fatalAssert
deriving DecidableEq

def SchemaRules_ProcessItemStep {α : Type} (flagAsync flagNoReindex : Bool)
    (specAsync : Bool) (docs : DocTable α) (key : String)
    (indexResult : Except QueryErrCode Unit) : ProcessOutcome :=
  if flagNoReindex && (DocTable_GetByKey docs key).isSome then .skipped
  else if flagAsync || specAsync then .submittedAsync
  else
    match indexResult with
    | .ok _ => .indexedOk
    | .error e => if e = .enoIdxFields then .indexedOk else .fatalAssert

/-- C7.  On the synchronous dispatch path (no async flag, spec not async,
item not skipped by scan mode), a "no indexable fields" indexing outcome is
converted to success and processing continues, while every other indexing
failure becomes a fatal assertion. -/
theorem c7_sync_error_policy {α : Type} (flagNoReindex : Bool)
    (docs : DocTable α) (key : String) (r : Except QueryErrCode Unit)
    (hskip : ¬(flagNoReindex = true
        ∧ (DocTable_GetByKey docs key).isSome = true)) :
    (SchemaRules_ProcessItemStep false flagNoReindex false docs key r
        = .indexedOk
      ↔ r = .ok () ∨ r = .error .enoIdxFields) ∧
    (SchemaRules_ProcessItemStep false flagNoReindex false docs key r
        = .fatalAssert
      ↔ r = .error .otherErr) := by
  have hcond : (flagNoReindex && (DocTable_GetByKey docs key).isSome)
      = false := by
    cases hnr : flagNoReindex
    · simp
    · cases hgb : (DocTable_GetByKey docs key).isSome
      · simp
      · exact absurd ⟨hnr, hgb⟩ hskip
  unfold SchemaRules_ProcessItemStep
  rw [hcond]
  simp only [Bool.false_eq_true, if_false, Bool.or_self]
  cases r with
  | ok u =>
    cases u
    constructor
    · constructor
      · intro _
        exact Or.inl rfl
      · intro _
        rfl
    · constructor
      · intro hc
        cases hc
      · intro hc
        cases hc
  | error e =>
    cases e with
    | enoIdxFields =>
      constructor
      · simp
      · simp
    | otherErr =>
      constructor
      · simp
      · simp

/-- C7 witness: a concrete synchronous dispatch where indexing reports "no
indexable fields"; the step reports success. -/
theorem c7_witness :
    (SchemaRules_ProcessItemStep false false false
        (⟨0, [], []⟩ : DocTable Nat) "k" (.error .enoIdxFields)
        = .indexedOk
      ↔ (.error .enoIdxFields : Except QueryErrCode Unit) = .ok ()
        ∨ (.error .enoIdxFields : Except QueryErrCode Unit)
            = .error .enoIdxFields) ∧
    (SchemaRules_ProcessItemStep false false false
        (⟨0, [], []⟩ : DocTable Nat) "k" (.error .enoIdxFields)
        = .fatalAssert
      ↔ (.error .enoIdxFields : Except QueryErrCode Unit)
          = .error .otherErr) :=
  c7_sync_error_policy false (⟨0, [], []⟩ : DocTable Nat) "k"
    (.error .enoIdxFields) (by decide)

/-- C8.  A matched key is skipped exactly when the scan/reconciliation flag
(NOREINDEX) is set and the target index's table already holds a live entry
for the key; without the flag, or when the table holds no entry, processing
proceeds to indexing (synchronous or asynchronous). -/
theorem c8_noreindex_skip {α : Type} (flagAsync flagNoReindex : Bool)
    (specAsync : Bool) (docs : DocTable α) (key : String)
    (r : Except QueryErrCode Unit) :
    SchemaRules_ProcessItemStep flagAsync flagNoReindex specAsync docs key r
        = .skipped
      ↔ flagNoReindex = true
        ∧ (DocTable_GetByKey docs key).isSome = true := by
  unfold SchemaRules_ProcessItemStep
  by_cases hcond : (flagNoReindex && (DocTable_GetByKey docs key).isSome)
      = true
  · rw [if_pos hcond]
    simp only [true_iff]
    exact Bool.and_eq_true_iff.mp hcond
  · rw [if_neg hcond]
    constructor
    · intro h
      by_cases hasync : (flagAsync || specAsync) = true
      · rw [if_pos hasync] at h
        cases h
      · rw [if_neg hasync] at h
        cases r with
        | ok u => cases h
        | error e => cases e <;> simp at h
    · intro h
      exact absurd (Bool.and_eq_true_iff.mpr h) hcond

/-! ## Rule-registry persistence (`rules.c`, `rulesAuxSave` / `rulesAuxLoad`)

The RDB byte stream is embedded as a list of typed items (`SaveUnsigned`
writes a `num`, `SaveStringBuffer`/`LoadString` a `str`); a read of the
wrong kind, or past the end, models a corrupt-stream load failure.  A rule
of the registry (`SchemaRule` of `ruledefs.h`, a different structure from
the match-engine rule of `spec.c`) carries the owning index name, the rule
name, the raw argument tokens retained verbatim, and the structure produced
by the creation-time parser; the parser itself (`SchemaRules_AddArgs`
delegates to it) is not among the sources and is passed in as a function
returning `Option P`. -/

inductive RdbItem where
  | num (n : Nat)
  | str (s : String)
deriving DecidableEq

structure SchemaRuleDef (P : Type) where
  index : String
  name : String
  rawrule : List String
  parsed : P
deriving DecidableEq

def RULES_CURRENT_VERSION : Nat := 0

/-- The per-rule body of `rulesAuxSave`: index name, rule name, argument
count, then the raw argument tokens. -/
def encodeRule {P : Type} (r : SchemaRuleDef P) : List RdbItem :=
  [.str r.index, .str r.name, .num r.rawrule.length] ++ r.rawrule.map .str

/-- `rulesAuxSave` (rules.c): nothing is written outside the before-RDB
phase; otherwise the rule count followed by each rule's body. -/
def rulesAuxSave {P : Type} (rules : List (SchemaRuleDef P))
    (whenBeforeRdb : Bool) : List RdbItem :=
  if !whenBeforeRdb then []
  else .num rules.length :: rules.flatMap encodeRule

/-- The wire form of one rule record, as read back by the loader. -/
def encodeRecord : String × String × List String → List RdbItem
  | (index, name, args) =>
    [.str index, .str name, .num args.length] ++ args.map .str

def encodeRecords (recs : List (String × String × List String)) :
    List RdbItem :=
  .num recs.length :: recs.flatMap encodeRecord

def readStr : List RdbItem → Option (String × List RdbItem)
  | .str s :: rest => some (s, rest)
  | _ => none

def readNum : List RdbItem → Option (Nat × List RdbItem)
  | .num n :: rest => some (n, rest)
  | _ => none

def readArgs : Nat → List RdbItem → Option (List String × List RdbItem)
  | 0, stream => some ([], stream)
  | n + 1, stream => do
    let (s, rest) ← readStr stream
    let (args, rest') ← readArgs n rest
    some (s :: args, rest')

/-- Modelled from the spec: `SchemaRules_AddArgs` (rules/create.c, not among
the sources) runs the rule-creation parser over the raw argument tokens; on
success the rule is stored with its raw tokens retained verbatim, replacing
any prior rule of the same index; on failure nothing is added. -/
def SchemaRules_AddArgs {P : Type}
    (parser : String → String → List String → Option P)
    (rules : List (SchemaRuleDef P)) (index name : String)
    (args : List String) : Option (List (SchemaRuleDef P)) :=
  match parser index name args with
  | none => none
  | some parsed =>
    some ((rules.filter (fun r => !(r.index == index)))
      ++ [⟨index, name, args, parsed⟩])

/-- The per-rule loop of `rulesAuxLoad`: read index, name, argument count
and arguments, re-run the creation parser; a parse failure aborts the whole
load. -/
def loadRules {P : Type}
    (parser : String → String → List String → Option P) :
    List (SchemaRuleDef P) → Nat → List RdbItem →
      Option (List (SchemaRuleDef P))
  | rules, 0, _ => some rules
  | rules, n + 1, stream => do
    let (index, s1) ← readStr stream
    let (name, s2) ← readStr s1
    let (nargs, s3) ← readNum s2
    let (args, s4) ← readArgs nargs s3
    let rules' ← SchemaRules_AddArgs parser rules index name args
    loadRules parser rules' n s4

/-- `rulesAuxLoad` (rules.c): an encoding version newer than
`RULES_CURRENT_VERSION` is rejected before anything else; outside the
before-RDB phase the stream is ignored; otherwise the rule count is read
and each persisted rule is re-parsed, any failure aborting the load. -/
def rulesAuxLoad {P : Type}
    (parser : String → String → List String → Option P)
    (rules : List (SchemaRuleDef P)) (encver : Nat)
    (whenBeforeRdb : Bool) (stream : List RdbItem) :
    Option (List (SchemaRuleDef P)) :=
  if RULES_CURRENT_VERSION < encver then none
  else if !whenBeforeRdb then some rules
  else
    match readNum stream with
    | none => none
    | some (nrules, rest) => loadRules parser rules nrules rest

theorem readArgs_encode {args : List String} {rem : List RdbItem} :
    readArgs args.length (args.map .str ++ rem) = some (args, rem) := by
  induction args with
  | nil => rfl
  | cons a rest ih =>
    simp only [List.length_cons, List.map_cons, List.cons_append, readArgs,
      readStr, Option.bind_eq_bind, Option.some_bind, ih]

theorem loadRules_encodeRule {P : Type}
    (parser : String → String → List String → Option P) :
    ∀ (rest acc : List (SchemaRuleDef P)),
      (∀ r ∈ rest, parser r.index r.name r.rawrule = some r.parsed) →
      (∀ r ∈ rest, ∀ a ∈ acc, ¬(a.index = r.index)) →
      ((rest.map (fun r => r.index)).Nodup) →
      loadRules parser acc rest.length (rest.flatMap encodeRule)
        = some (acc ++ rest) := by
  intro rest
  induction rest with
  | nil =>
    intro acc _ _ _
    simp [loadRules]
  | cons r tail ih =>
    intro acc hparse hdisj hnodup
    have hfilter : acc.filter (fun a => !(a.index == r.index)) = acc := by
      apply List.filter_eq_self.mpr
      intro a ha
      have := hdisj r (List.mem_cons_self _ _) a ha
      simpa using this
    simp only [List.flatMap_cons, encodeRule, List.length_cons,
      List.cons_append, List.nil_append, List.append_assoc, loadRules,
      readStr, readNum, Option.bind_eq_bind, Option.some_bind,
      readArgs_encode, SchemaRules_AddArgs,
      hparse r (List.mem_cons_self _ _), hfilter]
    have hdisj' : ∀ r' ∈ tail, ∀ a ∈ acc ++ [r], ¬(a.index = r'.index) := by
      intro r' hr' a ha
      rcases List.mem_append.mp ha with h1 | h2
      · exact hdisj r' (List.mem_cons_of_mem _ hr') a h1
      · have ha_eq : a = r := by simpa using h2
        rw [ha_eq]
        intro hcon
        have hnotin : r.index ∉ tail.map (fun q => q.index) := by
          simp only [List.map_cons, List.nodup_cons] at hnodup
          exact hnodup.1
        apply hnotin
        rw [hcon]
        exact List.mem_map.mpr ⟨r', hr', rfl⟩
    have hnodup' : (tail.map (fun q => q.index)).Nodup := by
      simp only [List.map_cons, List.nodup_cons] at hnodup
      exact hnodup.2
    have hstep := ih (acc ++ [r])
      (fun q hq => hparse q (List.mem_cons_of_mem _ hq)) hdisj' hnodup'
    have heta : (⟨r.index, r.name, r.rawrule, r.parsed⟩ : SchemaRuleDef P)
        = r := rfl
    rw [heta, hstep, List.append_assoc]
    rfl

/-- C5.  Round-trip: for every rule registry whose rules came from
successful runs of the creation-time parser (each rule's raw tokens
re-parse to its stored parsed form, and indexes are registered at most
once), deserializing the stream produced by serializing it reproduces the
registry exactly — same index names, same raw argument tokens in the same
order, and same parsed rules, because the serializer writes the raw tokens
and the loader re-runs the creation-time parser on them. -/
theorem c5_serialize_roundtrip {P : Type}
    (parser : String → String → List String → Option P)
    (registry : List (SchemaRuleDef P))
    (hparse : ∀ r ∈ registry, parser r.index r.name r.rawrule
      = some r.parsed)
    (hnodup : (registry.map (fun r => r.index)).Nodup) :
    rulesAuxLoad parser [] RULES_CURRENT_VERSION true
        (rulesAuxSave registry true)
      = some registry := by
  unfold rulesAuxLoad rulesAuxSave
  simp only [RULES_CURRENT_VERSION, Nat.lt_irrefl, if_false, Bool.not_true,
    Bool.false_eq_true, readNum]
  simpa using loadRules_encodeRule parser registry [] hparse
    (by intro r _ a ha; cases ha) hnodup

/-- A concrete creation-time parser used by the persistence witnesses: it
fails on an empty argument list and otherwise records the token count. -/
def parserW : String → String → List String → Option Nat :=
  fun _ _ args => if args = [] then none else some args.length

def registryW : List (SchemaRuleDef Nat) :=
  [⟨"idx1", "rule1", ["PREFIX", "1", "user:"], 3⟩,
   ⟨"idx2", "rule2", ["FILTER", "@age >= 18"], 2⟩]

/-- C5 witness: a two-rule registry round-trips through save and load. -/
theorem c5_witness :
    rulesAuxLoad parserW [] RULES_CURRENT_VERSION true
        (rulesAuxSave registryW true)
      = some registryW :=
  c5_serialize_roundtrip parserW registryW (by decide) (by decide)

theorem loadRules_records_isSome {P : Type}
    (parser : String → String → List String → Option P) :
    ∀ (recs : List (String × String × List String))
      (acc : List (SchemaRuleDef P)),
      (loadRules parser acc recs.length (recs.flatMap encodeRecord)).isSome
        ↔ ∀ rc ∈ recs, (parser rc.1 rc.2.1 rc.2.2).isSome := by
  intro recs
  induction recs with
  | nil =>
    intro acc
    simp [loadRules]
  | cons rc tail ih =>
    intro acc
    rcases rc with ⟨index, name, args⟩
    simp only [List.flatMap_cons, encodeRecord, List.length_cons,
      List.cons_append, List.nil_append, List.append_assoc, loadRules,
      readStr, readNum, Option.bind_eq_bind, Option.some_bind,
      readArgs_encode, SchemaRules_AddArgs]
    rcases hp : parser index name args with _ | parsed
    · simp only [hp, Option.none_bind, Option.isSome_none,
        Bool.false_eq_true, false_iff]
      intro hall
      have := hall (index, name, args) (List.mem_cons_self _ _)
      simp [hp] at this
    · simp only [hp, Option.some_bind, ih]
      constructor
      · intro hall rc' hrc'
        rcases List.mem_cons.mp hrc' with rfl | h2
        · simp [hp]
        · exact hall rc' h2
      · intro hall rc' hrc'
        exact hall rc' (List.mem_cons_of_mem _ hrc')

/-- C6.  The rule-registry loader returns a fatal load error whenever the
persisted stream has an encoding version newer than the current one, and —
in the before-RDB phase at the current version — it succeeds on an encoded
rule stream if and only if every persisted rule's raw arguments re-parse
through the creation-time parser; any parse failure aborts the whole load
rather than skipping the rule. -/
theorem c6_load_error_policy {P : Type}
    (parser : String → String → List String → Option P)
    (rules0 : List (SchemaRuleDef P)) (encver : Nat) (whenB : Bool)
    (stream : List RdbItem)
    (recs : List (String × String × List String)) :
    (RULES_CURRENT_VERSION < encver →
      rulesAuxLoad parser rules0 encver whenB stream = none) ∧
    ((rulesAuxLoad parser rules0 RULES_CURRENT_VERSION true
        (encodeRecords recs)).isSome
      ↔ ∀ rc ∈ recs, (parser rc.1 rc.2.1 rc.2.2).isSome) := by
  constructor
  · intro hver
    unfold rulesAuxLoad
    rw [if_pos hver]
  · unfold rulesAuxLoad
    simp only [RULES_CURRENT_VERSION, Nat.lt_irrefl, if_false, Bool.not_true,
      Bool.false_eq_true, encodeRecords, readNum]
    exact loadRules_records_isSome parser recs rules0

def recsW : List (String × String × List String) :=
  [("i1", "r1", ["PREFIX", "1", "x:"]), ("i2", "r2", [])]

/-- C6 witness: a newer encoding version is rejected outright, and the load
of a stream whose second rule fails to parse is characterized by the
all-rules-parse condition. -/
theorem c6_witness :
    (rulesAuxLoad parserW ([] : List (SchemaRuleDef Nat)) 1 true []
        = none) ∧
    ((rulesAuxLoad parserW ([] : List (SchemaRuleDef Nat))
        RULES_CURRENT_VERSION true (encodeRecords recsW)).isSome
      ↔ ∀ rc ∈ recsW, (parserW rc.1 rc.2.1 rc.2.2).isSome) :=
  ⟨(c6_load_error_policy parserW [] 1 true [] recsW).1 (by decide),
   (c6_load_error_policy parserW [] 1 true [] recsW).2⟩

/-! ## Index creation (`spec.c`, `IndexSpec_CreateNew`)

`specDict` is the global Redis dict from index name to spec, embedded as an
association list; `dictFetchValue` is a lookup and `dictAdd` only runs
after the duplicate check and the parse both succeed.
`IndexSpec_ParseRedisArgs` (which delegates to `IndexSpec_Parse`) is
abstracted to its outcome `parseResult`: the created spec, or `none` on a
parse failure; its value is only consulted against NULL. -/

inductive CreateErr where
  | indexExists
  | parseFailed
deriving DecidableEq

def IndexSpec_CreateNew {σ : Type} (specDict : List (String × σ))
    (specName : String) (parseResult : Option σ) :
    List (String × σ) × Except CreateErr σ :=
  if (specDict.find? (fun p => p.1 == specName)).isSome then
    (specDict, .error .indexExists)
  else
    match parseResult with
    | none => (specDict, .error .parseFailed)
    | some sp => (specDict ++ [(specName, sp)], .ok sp)

/-- C9.  Creating an index under a name that is already registered fails
with the duplicate-index error (`QUERY_EINDEXEXISTS`) and leaves the
registry of known indexes exactly as it was. -/
theorem c9_duplicate_create_rejected {σ : Type}
    (specDict : List (String × σ)) (specName : String)
    (parseResult : Option σ)
    (hdup : (specDict.find? (fun p => p.1 == specName)).isSome = true) :
    IndexSpec_CreateNew specDict specName parseResult
      = (specDict, .error .indexExists) := by
  unfold IndexSpec_CreateNew
  rw [if_pos hdup]

/-- C9 witness: re-creating index `idx` over a registry that already holds
it fails and leaves the registry unchanged. -/
theorem c9_witness :
    IndexSpec_CreateNew [("idx", 1)] "idx" (some 2)
      = ([("idx", 1)], .error .indexExists) :=
  c9_duplicate_create_rejected [("idx", 1)] "idx" (some 2) (by decide)

/-! ## Field parsing and `IndexSpec_AddFieldsInternal` (`spec.c`)

The argument cursor (`ArgsCursor`) is embedded as the list of remaining
tokens; `AC_AdvanceIfMatch` compares case-insensitively (`strcasecmp`), so
tokens are compared through ASCII lowercasing.  `AC_GetDouble`'s numeric
syntax check is external (`strtod`) and is passed in as `parseDbl`; the
weight value itself is retained as its source token, since nothing in the
modelled code computes with it.  The option strings are the `SPEC_*_STR`
constants of `spec.h`.  Field type and option bitmasks become structures of
booleans. -/

def charToLower (c : Char) : Char :=
  if 'A' ≤ c ∧ c ≤ 'Z' then Char.ofNat (c.toNat + 32) else c

/-- Case-insensitive token equality (ASCII `strcasecmp`). -/
def strCaseEq (a b : String) : Bool :=
  a.data.map charToLower == b.data.map charToLower

structure FieldTypes where
  fulltext : Bool := false
  numericT : Bool := false
  geo : Bool := false
  tag : Bool := false
deriving DecidableEq

structure FieldOpts where
  noStemming : Bool := false
  phonetics : Bool := false
  sortable : Bool := false
  notIndexable : Bool := false
  dynamic : Bool := false
deriving DecidableEq

structure FieldSpec where
  name : String
  types : FieldTypes := {}
  options : FieldOpts := {}
  ftId : Option Nat := none
  ftWeight : String := "1.0"
  sortIdx : Int := -1
  tagSep : Char := ','
deriving DecidableEq

/-- `FieldSpec_Initialize`: merge the given type bits; a TAG field also gets
the default tag flags and separator. -/
def FieldSpec_Init (fs : FieldSpec) (types : FieldTypes) : FieldSpec :=
  let fs1 := { fs with types := ⟨fs.types.fulltext || types.fulltext,
    fs.types.numericT || types.numericT, fs.types.geo || types.geo,
    fs.types.tag || types.tag⟩ }
  if types.tag then { fs1 with tagSep := ',' } else fs1

/-- `checkPhoneticAlgorithmAndLang` (spec.c): the matcher must be 5 bytes,
start with `dm:` and end with one of the language codes en, pt, fr, es. -/
def checkPhoneticAlgorithmAndLang (matcher : String) : Bool :=
  match matcher.data with
  | [c0, c1, c2, c3, c4] =>
    if c0 ≠ 'd' ∨ c1 ≠ 'm' ∨ c2 ≠ ':' then false
    else
      (c3 == 'e' && c4 == 'n') || (c3 == 'p' && c4 == 't')
        || (c3 == 'f' && c4 == 'r') || (c3 == 'e' && c4 == 's')
  | _ => false

/-- `parseTextField` (spec.c): the option loop of a TEXT field — NOSTEM,
WEIGHT with a numeric argument, PHONETIC with a valid matcher; the loop
breaks at the first unrecognized token, and a malformed option is a parse
error (`none`). -/
def parseTextField (parseDbl : String → Bool) :
    FieldSpec → List String → Option (FieldSpec × List String)
  | fs, [] => some (fs, [])
  | fs, t :: rest =>
    if strCaseEq t "NOSTEM" then
      parseTextField parseDbl
        { fs with options := { fs.options with noStemming := true } } rest
    else if strCaseEq t "WEIGHT" then
      match rest with
      | [] => none
      | d :: rest2 =>
        if parseDbl d then
          parseTextField parseDbl { fs with ftWeight := d } rest2
        else none
    else if strCaseEq t "PHONETIC" then
      match rest with
      | [] => none
      | m :: rest2 =>
        if checkPhoneticAlgorithmAndLang m then
          parseTextField parseDbl
            { fs with options := { fs.options with phonetics := true } }
            rest2
        else none
    else some (fs, t :: rest)

/-- The common trailing option loop of `parseFieldSpec`: SORTABLE and
NOINDEX, breaking at the first other token; it cannot fail. -/
def parseFieldOptions : FieldSpec → List String → FieldSpec × List String
  | fs, [] => (fs, [])
  | fs, t :: rest =>
    if strCaseEq t "SORTABLE" then
      parseFieldOptions
        { fs with options := { fs.options with sortable := true } } rest
    else if strCaseEq t "NOINDEX" then
      parseFieldOptions
        { fs with options := { fs.options with notIndexable := true } } rest
    else (fs, t :: rest)

/-- `parseFieldSpec` (spec.c): a field with no type token, an unknown type
token, or a malformed option is a parse error; otherwise the parsed field
and the remaining cursor are returned. -/
def parseFieldSpec (parseDbl : String → Bool) (fs : FieldSpec)
    (ac : List String) : Option (FieldSpec × List String) :=
  match ac with
  | [] => none
  | t :: rest =>
    if strCaseEq t "TEXT" then
      match parseTextField parseDbl
          (FieldSpec_Init fs ⟨true, false, false, false⟩) rest with
      | none => none
      | some (fs2, rest2) => some (parseFieldOptions fs2 rest2)
    else if strCaseEq t "NUMERIC" then
      some (parseFieldOptions (FieldSpec_Init fs ⟨false, true, false, false⟩)
        rest)
    else if strCaseEq t "GEO" then
      some (parseFieldOptions (FieldSpec_Init fs ⟨false, false, true, false⟩)
        rest)
    else if strCaseEq t "TAG" then
      let fs2 := FieldSpec_Init fs ⟨false, false, false, true⟩
      match rest with
      | [] => some (parseFieldOptions fs2 [])
      | s :: rest2 =>
        if strCaseEq s "SEPARATOR" then
          match rest2 with
          | [] => none
          | sep :: rest3 =>
            if sep.length = 1 then
              some (parseFieldOptions { fs2 with tagSep := sep.data.headD ',' }
                rest3)
            else none
        else some (parseFieldOptions fs2 (s :: rest2))
    else none

/-! ### Cursor-consumption bounds (used for termination of the field loop) -/

theorem parseTextField_length (parseDbl : String → Bool) (fs : FieldSpec)
    (ac : List String) :
    ∀ fs2 rest2, parseTextField parseDbl fs ac = some (fs2, rest2) →
      rest2.length ≤ ac.length := by
  induction fs, ac using parseTextField.induct parseDbl with
  | case1 fs =>
    intro fs2 rest2 h
    simp only [parseTextField, Option.some.injEq, Prod.mk.injEq] at h
    obtain ⟨-, h2⟩ := h
    subst h2
    simp
  | case2 fs t rest h1 ih =>
    intro fs2 rest2 h
    rw [parseTextField.eq_def] at h
    simp only [h1, if_true] at h
    exact (ih fs2 rest2 h).trans (by simp)
  | case3 fs t h1 h2 =>
    intro fs2 rest2 h
    simp only [parseTextField, h1, h2, Bool.false_eq_true, if_false,
      if_true] at h
    exact Option.noConfusion h
  | case4 fs t h1 h2 d rest2 hd ih =>
    intro fs2 r2 h
    rw [parseTextField.eq_def] at h
    simp only [h1, h2, hd, Bool.false_eq_true, if_false, if_true] at h
    refine (ih fs2 r2 h).trans ?_
    simp only [List.length_cons]
    omega
  | case5 fs t h1 h2 d rest2 hd =>
    intro fs2 r2 h
    rw [parseTextField.eq_def] at h
    simp only [h1, h2, hd, Bool.false_eq_true, if_false, if_true] at h
    exact Option.noConfusion h
  | case6 fs t h1 h2 h3 =>
    intro fs2 rest2 h
    simp only [parseTextField, h1, h2, h3, Bool.false_eq_true, if_false,
      if_true] at h
    exact Option.noConfusion h
  | case7 fs t h1 h2 h3 m rest2 hm ih =>
    intro fs2 r2 h
    rw [parseTextField.eq_def] at h
    simp only [h1, h2, h3, hm, Bool.false_eq_true, if_false, if_true] at h
    refine (ih fs2 r2 h).trans ?_
    simp only [List.length_cons]
    omega
  | case8 fs t h1 h2 h3 m rest2 hm =>
    intro fs2 r2 h
    rw [parseTextField.eq_def] at h
    simp only [h1, h2, h3, hm, Bool.false_eq_true, if_false, if_true] at h
    exact Option.noConfusion h
  | case9 fs t rest h1 h2 h3 =>
    intro fs2 rest2 h
    rw [parseTextField.eq_def] at h
    simp only [h1, h2, h3, Bool.false_eq_true, if_false,
      Option.some.injEq, Prod.mk.injEq] at h
    obtain ⟨-, h4⟩ := h
    subst h4
    simp

theorem parseFieldOptions_length (fs : FieldSpec) (ac : List String) :
    (parseFieldOptions fs ac).2.length ≤ ac.length := by
  induction fs, ac using parseFieldOptions.induct with
  | case1 fs => simp [parseFieldOptions]
  | case2 fs t rest h1 ih =>
    rw [parseFieldOptions.eq_def]
    simp only [h1, if_true]
    exact ih.trans (by simp)
  | case3 fs t rest h1 h2 ih =>
    rw [parseFieldOptions.eq_def]
    simp only [h1, h2, Bool.false_eq_true, if_false, if_true]
    exact ih.trans (by simp)
  | case4 fs t rest h1 h2 =>
    rw [parseFieldOptions.eq_def]
    simp only [h1, h2, Bool.false_eq_true, if_false]
    exact le_refl _

theorem parseFieldSpec_length (parseDbl : String → Bool) (fs : FieldSpec)
    (ac : List String) :
    ∀ fs1 rest1, parseFieldSpec parseDbl fs ac = some (fs1, rest1) →
      rest1.length < ac.length := by
  intro fs1 rest1 h
  rw [parseFieldSpec.eq_def] at h
  split at h
  · exact Option.noConfusion h
  · rename_i t rest
    split at h
    · -- TEXT
      split at h
      · exact Option.noConfusion h
      · rename_i fs2 rest2 hpt
        have hb1 := parseTextField_length parseDbl _ rest fs2 rest2 hpt
        simp only [Option.some.injEq] at h
        have hr : rest1 = (parseFieldOptions fs2 rest2).2 := by
          rw [h]
        rw [hr]
        refine lt_of_le_of_lt ((parseFieldOptions_length _ _).trans hb1) ?_
        simp only [List.length_cons]
        omega
    · split at h
      · -- NUMERIC
        simp only [Option.some.injEq] at h
        have hr : (parseFieldOptions _ _).2 = rest1 := congrArg Prod.snd h
        rw [← hr]
        refine lt_of_le_of_lt (parseFieldOptions_length _ _) ?_
        simp only [List.length_cons]
        omega
      · split at h
        · -- GEO
          simp only [Option.some.injEq] at h
          have hr : (parseFieldOptions _ _).2 = rest1 := congrArg Prod.snd h
          rw [← hr]
          refine lt_of_le_of_lt (parseFieldOptions_length _ _) ?_
          simp only [List.length_cons]
          omega
        · split at h
          · -- TAG
            split at h
            · -- cursor exhausted after TAG
              simp only [Option.some.injEq] at h
              have hr : (parseFieldOptions _ _).2 = rest1 := congrArg Prod.snd h
              rw [← hr]
              refine lt_of_le_of_lt (parseFieldOptions_length _ _) ?_
              simp
            · rename_i s rest2
              split at h
              · -- SEPARATOR
                split at h
                · exact Option.noConfusion h
                · rename_i sep rest3
                  split at h
                  · simp only [Option.some.injEq] at h
                    have hr : (parseFieldOptions _ _).2 = rest1 := congrArg Prod.snd h
                    rw [← hr]
                    refine lt_of_le_of_lt (parseFieldOptions_length _ _) ?_
                    simp only [List.length_cons]
                    omega
                  · exact Option.noConfusion h
              · simp only [Option.some.injEq] at h
                have hr : (parseFieldOptions _ _).2 = rest1 := congrArg Prod.snd h
                rw [← hr]
                refine lt_of_le_of_lt (parseFieldOptions_length _ _) ?_
                simp only [List.length_cons]
                omega
          · exact Option.noConfusion h

/-! ### `IndexSpec_AddFieldsInternal` -/

structure IndexFlags where
  storeFieldFlags : Bool := true
  wideSchema : Bool := false
  hasPhonetic : Bool := false
deriving DecidableEq

/-- The state of an `IndexSpec` touched by `IndexSpec_AddFieldsInternal`:
the live field array (its length is `numFields`), the live entries of the
sorting table (its length is `sortables->len`; `RSSortingTable_Add` appends
an entry built from the field name and its type, and returns its index),
and the flag bits the function reads or writes. -/
structure IndexSpecSt where
  fields : List FieldSpec := []
  sortEntries : List (String × FieldTypes) := []
  flags : IndexFlags := {}
deriving DecidableEq

/-- `IndexSpec_GetField` (via `getFieldCommon` with `useCase = 0`):
case-insensitive lookup of a field by name. -/
def IndexSpec_GetField (fields : List FieldSpec) (name : String) :
    Option FieldSpec :=
  fields.find? (fun fs => strCaseEq fs.name name)

/-- `IndexSpec_CreateField`: a zeroed field slot with the given name and the
default weight, no text id and no sorting index. -/
def IndexSpec_CreateField (name : String) : FieldSpec :=
  { name := name }

/-- `IndexSpec_CreateTextId`: one more than the largest assigned text id
among full-text fields (ids of value -1 are ignored), or failure when the
result would reach `SPEC_MAX_FIELD_ID` (a parameter here, `maxFieldId`). -/
def IndexSpec_CreateTextId (fields : List FieldSpec) (maxFieldId : Nat) :
    Option Nat :=
  let maxId : Int := fields.foldl
    (fun acc fs =>
      if fs.types.fulltext then
        match fs.ftId with
        | none => acc
        | some i => max acc (i : Int)
      else acc) (-1)
  if (maxFieldId : Int) ≤ maxId + 1 then none else some (maxId + 1).toNat

/-- The tail of one iteration of the `IndexSpec_AddFieldsInternal` loop,
after type parsing and text-id assignment: the sortable check (a dynamic
sortable field is an error), the sorting-table append, the phonetic flag,
and the commit of the new field.  An `error` result carries the raw state
at the failure point, to be rolled back by the caller's reset. -/
def finishField (sp : IndexSpecSt) (fs : FieldSpec) (rest : List String) :
    Except IndexSpecSt (IndexSpecSt × List String) :=
  if fs.options.sortable && fs.options.dynamic then
    .error { sp with fields := sp.fields ++ [fs] }
  else
    let fs1 :=
      if fs.options.sortable then
        { fs with sortIdx := (sp.sortEntries.length : Int) }
      else { fs with sortIdx := -1 }
    let sortE :=
      if fs.options.sortable then sp.sortEntries ++ [(fs.name, fs.types)]
      else sp.sortEntries
    let flags1 :=
      if fs1.options.phonetics then { sp.flags with hasPhonetic := true }
      else sp.flags
    .ok ({ fields := sp.fields ++ [fs1], sortEntries := sortE,
           flags := flags1 }, rest)

/-- One iteration of the `IndexSpec_AddFieldsInternal` loop: duplicate-name
check, `IndexSpec_CreateField`, `parseFieldSpec`, text-id assignment with
the wide-schema check (`SPEC_WIDEFIELD_THRESHOLD` is the parameter `thr`),
then `finishField`.  An `error` carries the state at the failure point. -/
def addFieldStep (parseDbl : String → Bool) (maxFieldId thr : Nat)
    (isNew : Bool) (sp : IndexSpecSt) (fieldName : String)
    (rest : List String) : Except IndexSpecSt (IndexSpecSt × List String) :=
  if (IndexSpec_GetField sp.fields fieldName).isSome then .error sp
  else
    match parseFieldSpec parseDbl (IndexSpec_CreateField fieldName) rest with
    | none =>
      .error { sp with fields := sp.fields ++ [IndexSpec_CreateField fieldName] }
    | some (fs1, rest1) =>
      if fs1.types.fulltext && !fs1.options.notIndexable then
        match IndexSpec_CreateTextId (sp.fields ++ [fs1]) maxFieldId with
        | none => .error { sp with fields := sp.fields ++ [fs1] }
        | some textId =>
          if thr ≤ textId && sp.flags.storeFieldFlags then
            if isNew then
              finishField
                { sp with flags := { sp.flags with wideSchema := true } }
                { fs1 with ftId := some textId } rest1
            else if !sp.flags.wideSchema then
              .error { sp with fields := sp.fields ++ [fs1] }
            else finishField sp { fs1 with ftId := some textId } rest1
          else finishField sp { fs1 with ftId := some textId } rest1
      else finishField sp fs1 rest1

theorem finishField_rest (sp : IndexSpecSt) (fs : FieldSpec)
    (rest : List String) :
    ∀ sp1 rest1, finishField sp fs rest = .ok (sp1, rest1) → rest1 = rest := by
  intro sp1 rest1 h
  unfold finishField at h
  split at h
  · exact Except.noConfusion h
  · simp only [Except.ok.injEq, Prod.mk.injEq] at h
    obtain ⟨-, h2⟩ := h
    exact h2.symm

theorem addFieldStep_length (parseDbl : String → Bool) (maxFieldId thr : Nat)
    (isNew : Bool) (sp : IndexSpecSt) (fieldName : String)
    (rest : List String) :
    ∀ sp1 rest1,
      addFieldStep parseDbl maxFieldId thr isNew sp fieldName rest
        = .ok (sp1, rest1) →
      rest1.length < rest.length + 1 := by
  intro sp1 rest1 h
  unfold addFieldStep at h
  split at h
  · exact Except.noConfusion h
  · split at h
    · exact Except.noConfusion h
    · rename_i fs1 rest' hpf
      have hlen := parseFieldSpec_length parseDbl _ rest fs1 rest' hpf
      split at h
      · split at h
        · exact Except.noConfusion h
        · split at h
          · split at h
            · have hre := finishField_rest _ _ _ _ _ h
              rw [hre]
              omega
            · split at h
              · exact Except.noConfusion h
              · have hre := finishField_rest _ _ _ _ _ h
                rw [hre]
                omega
          · have hre := finishField_rest _ _ _ _ _ h
            rw [hre]
            omega
      · have hre := finishField_rest _ _ _ _ _ h
        rw [hre]
        omega

/-- The field loop of `IndexSpec_AddFieldsInternal` (the `while
(!AC_IsAtEnd(ac))` loop): on the first failing iteration it stops and
reports the state at the failure point. -/
def addFieldsLoop (parseDbl : String → Bool) (maxFieldId thr : Nat)
    (isNew : Bool) (sp : IndexSpecSt) (ac : List String) :
    Bool × IndexSpecSt :=
  match ac with
  | [] => (true, sp)
  | fieldName :: rest =>
    match h : addFieldStep parseDbl maxFieldId thr isNew sp fieldName rest
        with
    | .error spFail => (false, spFail)
    | .ok (sp1, rest1) =>
      addFieldsLoop parseDbl maxFieldId thr isNew sp1 rest1
termination_by ac.length
decreasing_by
  have hlt := addFieldStep_length _ _ _ _ _ _ _ _ _ h
  simpa using hlt

/-- `IndexSpec_AddFieldsInternal` (spec.c): run the field loop; on failure,
the reset block restores the field count to its value before the call
(cleaning up any partially added field) and the sorting-table length to its
previous length. -/
def IndexSpec_AddFieldsInternal (parseDbl : String → Bool)
    (maxFieldId thr : Nat) (sp : IndexSpecSt) (ac : List String)
    (isNew : Bool) : Bool × IndexSpecSt :=
  match addFieldsLoop parseDbl maxFieldId thr isNew sp ac with
  | (true, sp1) => (true, sp1)
  | (false, spF) =>
    (false, { spF with fields := spF.fields.take sp.fields.length,
                       sortEntries := spF.sortEntries.take
                         sp.sortEntries.length })

/-- The state carried by either outcome of a loop step. -/
def stepState : Except IndexSpecSt (IndexSpecSt × List String) →
    IndexSpecSt
  | .error s => s
  | .ok (s, _) => s

/-- `sp1` extends `sp`: its field array and sorting table are those of `sp`
with entries appended at the end. -/
def extendsSpec (sp1 sp : IndexSpecSt) : Prop :=
  (∃ e, sp1.fields = sp.fields ++ e)
    ∧ ∃ e, sp1.sortEntries = sp.sortEntries ++ e

theorem extendsSpec_refl (sp : IndexSpecSt) : extendsSpec sp sp :=
  ⟨⟨[], by simp⟩, ⟨[], by simp⟩⟩

theorem extendsSpec_trans {sp2 sp1 sp : IndexSpecSt}
    (h2 : extendsSpec sp2 sp1) (h1 : extendsSpec sp1 sp) :
    extendsSpec sp2 sp := by
  rcases h2 with ⟨⟨e2, hf2⟩, ⟨s2, hs2⟩⟩
  rcases h1 with ⟨⟨e1, hf1⟩, ⟨s1, hs1⟩⟩
  exact ⟨⟨e1 ++ e2, by rw [hf2, hf1, List.append_assoc]⟩,
         ⟨s1 ++ s2, by rw [hs2, hs1, List.append_assoc]⟩⟩

theorem finishField_extends (sp : IndexSpecSt) (fs : FieldSpec)
    (rest : List String) :
    extendsSpec (stepState (finishField sp fs rest)) sp := by
  unfold finishField
  split
  · exact ⟨⟨[fs], rfl⟩, ⟨[], by simp [stepState]⟩⟩
  · by_cases hs : fs.options.sortable = true
    · simp only [stepState, hs, if_true]
      exact ⟨⟨_, rfl⟩, ⟨_, rfl⟩⟩
    · simp only [stepState, hs, Bool.false_eq_true, if_false]
      exact ⟨⟨_, rfl⟩, ⟨[], by simp [stepState]⟩⟩

theorem addFieldStep_extends (parseDbl : String → Bool)
    (maxFieldId thr : Nat) (isNew : Bool) (sp : IndexSpecSt)
    (fieldName : String) (rest : List String) :
    extendsSpec
      (stepState (addFieldStep parseDbl maxFieldId thr isNew sp fieldName
        rest)) sp := by
  unfold addFieldStep
  split
  · exact extendsSpec_refl sp
  · split
    · exact ⟨⟨_, rfl⟩, ⟨[], by simp [stepState]⟩⟩
    · rename_i fs1 rest1 hpf
      split
      · split
        · exact ⟨⟨_, rfl⟩, ⟨[], by simp [stepState]⟩⟩
        · rename_i textId hti
          split
          · split
            · exact finishField_extends _ _ _
            · split
              · exact ⟨⟨_, rfl⟩, ⟨[], by simp [stepState]⟩⟩
              · exact finishField_extends _ _ _
          · exact finishField_extends _ _ _
      · exact finishField_extends _ _ _

theorem addFieldsLoop_extends (parseDbl : String → Bool)
    (maxFieldId thr : Nat) (isNew : Bool) (sp : IndexSpecSt)
    (ac : List String) :
    extendsSpec (addFieldsLoop parseDbl maxFieldId thr isNew sp ac).2 sp := by
  induction sp, ac using addFieldsLoop.induct parseDbl maxFieldId thr isNew
      with
  | case1 sp =>
    rw [addFieldsLoop]
    exact extendsSpec_refl sp
  | case2 sp fieldName rest spFail h =>
    rw [addFieldsLoop]
    split
    · rename_i spFail1 heq
      have hstep := addFieldStep_extends parseDbl maxFieldId thr isNew sp
        fieldName rest
      rw [heq] at hstep
      exact hstep
    · rename_i sp1 rest1 heq
      rw [h] at heq
      exact Except.noConfusion heq
  | case3 sp fieldName rest sp1 rest1 h ih =>
    rw [addFieldsLoop]
    split
    · rename_i spFail1 heq
      rw [h] at heq
      exact Except.noConfusion heq
    · rename_i sp1' rest1' heq
      rw [h] at heq
      simp only [Except.ok.injEq, Prod.mk.injEq] at heq
      obtain ⟨h3, h4⟩ := heq
      subst h3
      subst h4
      have hstep := addFieldStep_extends parseDbl maxFieldId thr isNew sp
        fieldName rest
      rw [h] at hstep
      exact extendsSpec_trans ih hstep

/-- C10.  Adding fields to an index is atomic: whenever
`IndexSpec_AddFieldsInternal` fails (any field failing to parse — unknown
type, duplicate name, too many text fields, bad option — aborts it), the
index's field array (hence its field count) and its sorting table are
restored to exactly their values before the call, with no partially added
field remaining. -/
theorem c10_addfields_atomic (parseDbl : String → Bool)
    (maxFieldId thr : Nat) (sp : IndexSpecSt) (ac : List String)
    (isNew : Bool)
    (h : (IndexSpec_AddFieldsInternal parseDbl maxFieldId thr sp ac
      isNew).1 = false) :
    (IndexSpec_AddFieldsInternal parseDbl maxFieldId thr sp ac
        isNew).2.fields = sp.fields
      ∧ (IndexSpec_AddFieldsInternal parseDbl maxFieldId thr sp ac
        isNew).2.sortEntries = sp.sortEntries := by
  have hext := addFieldsLoop_extends parseDbl maxFieldId thr isNew sp ac
  rcases hl : addFieldsLoop parseDbl maxFieldId thr isNew sp ac with ⟨b, spL⟩
  rw [hl] at hext
  cases b
  · have hval : IndexSpec_AddFieldsInternal parseDbl maxFieldId thr sp ac
        isNew
        = (false, { spL with
            fields := spL.fields.take sp.fields.length,
            sortEntries := spL.sortEntries.take sp.sortEntries.length }) := by
      unfold IndexSpec_AddFieldsInternal
      rw [hl]
    have hext2 : extendsSpec spL sp := hext
    rcases hext2 with ⟨⟨e1, hf⟩, ⟨e2, hs⟩⟩
    rw [hval]
    constructor
    · simp only [hf]
      exact List.take_left sp.fields e1
    · simp only [hs]
      exact List.take_left sp.sortEntries e2
  · exfalso
    have hval : IndexSpec_AddFieldsInternal parseDbl maxFieldId thr sp ac
        isNew = (true, spL) := by
      unfold IndexSpec_AddFieldsInternal
      rw [hl]
    rw [hval] at h
    simp at h

def spW : IndexSpecSt :=
  { fields := [{ name := "f0", types := { numericT := true } }],
    sortEntries := [("f0", { numericT := true })] }

/-- C10 witness: adding `f1 BADTYPE` to a one-field index fails and leaves
the field array and sorting table exactly as they were. -/
theorem c10_witness :
    (IndexSpec_AddFieldsInternal (fun _ => true) 128 32 spW
        ["f1", "BADTYPE"] true).2.fields = spW.fields
      ∧ (IndexSpec_AddFieldsInternal (fun _ => true) 128 32 spW
        ["f1", "BADTYPE"] true).2.sortEntries = spW.sortEntries :=
  c10_addfields_atomic (fun _ => true) 128 32 spW ["f1", "BADTYPE"] true
    (by simp +decide [IndexSpec_AddFieldsInternal, addFieldsLoop,
      addFieldStep, IndexSpec_GetField, IndexSpec_CreateField,
      parseFieldSpec, strCaseEq, charToLower, spW])

end RediSearch
